import Mathlib

/-!
Shallow embedding of `tourboxelite/gui/update_checker.py`.

The module has three pieces of logic:
  * `UpdateChecker._parse_version`: `re.search(r"VERSION\s*=\s*['\"]([^'\"]+)['\"]", content)`,
    returning the first capture group of the leftmost match, or `None`;
  * `UpdateChecker._is_newer`: split both version strings on `.`, parse each
    segment with Python `int`, compare the integer lists with Python `>`
    (lexicographic); any `ValueError` yields `False`;
  * `UpdateChecker.run`: fetch the body over HTTP, then emit exactly one of the
    signals `update_available`, `no_update`, `check_failed`.

The network fetch is represented by a `FetchOutcome` value (the body on
success, or which exception `urlopen` raised).  Signal emission is represented
by the list of emitted results, so "exactly one signal" is a provable length
statement.  Python's `\s` and `int` accept some non-ASCII whitespace/digits;
the embedding uses the ASCII classes, which is what every claim exercises.
The logger is modelled, where a claim needs it, as an explicit list of log
lines threaded through `_is_newerSt` / `_parse_versionSt`.
-/

/-- The six ASCII characters matched by Python's `\s` (space, tab, newline,
carriage return, vertical tab, form feed). -/
def pySpace (c : Char) : Bool :=
  c = ' ' || c = '\t' || c = '\n' || c = '\r' || c = Char.ofNat 11 || c = Char.ofNat 12

/-- The regex class `['\"]`: a single or double quote character. -/
def isQuote (c : Char) : Bool :=
  c = '"' || c = Char.ofNat 39

/-- Consume an exact literal from the front of the input (the `VERSION` part
of the regex). -/
def dropLit : List Char → List Char → Option (List Char)
  | [], s => some s
  | _ :: _, [] => none
  | c :: cs, d :: ds => if c = d then dropLit cs ds else none

/-- The `([^'\"]+)['\"]` part of the pattern: a nonempty greedy run of
non-quote characters followed by a closing quote (not necessarily matching the
opening one).  The run is greedy and the follow character is outside the class,
so it is exactly `takeWhile`. -/
def matchTail (s5 : List Char) : Option (List Char) :=
  match s5.takeWhile (fun c => !(isQuote c)), s5.dropWhile (fun c => !(isQuote c)) with
  | a :: v, _ :: _ => some (a :: v)
  | _, _ => none

/-- The `['\"](...)` part: an opening quote, then the quoted value. -/
def matchQuoted (s4 : List Char) : Option (List Char) :=
  match s4 with
  | [] => none
  | q :: s5 => if isQuote q then matchTail s5 else none

/-- The `=\s*['\"](...)` part: the equals sign, greedy whitespace, then the
quoted value. -/
def matchEq (s2 : List Char) : Option (List Char) :=
  match s2 with
  | [] => none
  | e :: s3 => if e = '=' then matchQuoted (s3.dropWhile pySpace) else none

/-- Attempt the regex `VERSION\s*=\s*['\"]([^'\"]+)['\"]` at the start of the
input, returning the capture group.  Each greedy repetition in the pattern is
followed by a character disjoint from its class, so the match attempt at a
position is deterministic and `\s*` / `[^'\"]+` reduce to `dropWhile` /
`takeWhile`. -/
def matchAt (s : List Char) : Option (List Char) :=
  match dropLit "VERSION".data s with
  | none => none
  | some s1 => matchEq (s1.dropWhile pySpace)

/-- `re.search`: try the pattern at every position, leftmost first. -/
def searchV : List Char → Option (List Char)
  | [] => none
  | c :: rest =>
    match matchAt (c :: rest) with
    | some v => some v
    | none => searchV rest

/-- `UpdateChecker._parse_version`: version string of the leftmost match of
`VERSION\s*=\s*['\"]([^'\"]+)['\"]` in the content, or `None`. -/
def parse_version (content : String) : Option String :=
  (searchV content.data).map String.mk

/-- Value of an ASCII decimal digit. -/
def digVal (c : Char) : Nat := c.toNat - 48

/-- Digits of a Python `int` literal after the first digit: further digits,
with single underscores allowed between digits. -/
def pyDigitsAux : Nat → List Char → Option Nat
  | acc, [] => some acc
  | acc, c :: rest =>
    if c.isDigit then pyDigitsAux (10 * acc + digVal c) rest
    else if c = '_' then
      match rest with
      | [] => none
      | d :: rest2 => if d.isDigit then pyDigitsAux (10 * acc + digVal d) rest2 else none
    else none

/-- A nonempty Python digit run (first character must be a digit). -/
def pyDigits : List Char → Option Nat
  | [] => none
  | c :: rest => if c.isDigit then pyDigitsAux (digVal c) rest else none

/-- Strip leading and trailing whitespace, as Python `int` does. -/
def stripWS (s : List Char) : List Char :=
  ((s.dropWhile pySpace).reverse.dropWhile pySpace).reverse

/-- Sign and digit-run part of a Python `int` literal (whitespace already
stripped): an optional `-` or `+` immediately followed by the digits. -/
def pySigned : List Char → Option Int
  | [] => none
  | c :: rest =>
    if c = '-' then
      match pyDigits rest with
      | some n => some (-(n : Int))
      | none => none
    else if c = '+' then
      match pyDigits rest with
      | some n => some ((n : Int))
      | none => none
    else
      match pyDigits (c :: rest) with
      | some n => some ((n : Int))
      | none => none

/-- Python `int(str)`: optional surrounding whitespace, optional sign,
then a digit run with optional single underscores between digits; any other
input raises `ValueError`, modelled as `none`. -/
def pyIntL (s : List Char) : Option Int :=
  pySigned (stripWS s)

/-- Python `str.split('.')`: split on every dot; the empty string gives one
empty segment. -/
def splitDots : List Char → List (List Char)
  | [] => [[]]
  | c :: rest =>
    if c = '.' then [] :: splitDots rest
    else
      match splitDots rest with
      | [] => [[c]]
      | s :: ss => (c :: s) :: ss

/-- `[int(x) for x in parts]`: left to right, the first `ValueError` aborts. -/
def parseParts : List (List Char) → Option (List Int)
  | [] => some []
  | seg :: rest =>
    match pyIntL seg, parseParts rest with
    | some n, some ns => some (n :: ns)
    | _, _ => none

/-- `[int(x) for x in s.split('.')]`, the Version tuple of a version string. -/
def versionParts (s : String) : Option (List Int) :=
  parseParts (splitDots s.data)

/-- Python list comparison `a > b` on integer lists: lexicographic, a longer
list beats its proper prefixes. -/
def pyListGt : List Int → List Int → Bool
  | [], _ => false
  | _ :: _, [] => true
  | x :: xs, y :: ys =>
    if y < x then true
    else if x < y then false
    else pyListGt xs ys

/-- `UpdateChecker._is_newer`: parse both version strings and compare; a
`ValueError` from either parse yields `False`. -/
def is_newer (latest current : String) : Bool :=
  match versionParts latest, versionParts current with
  | some lp, some cp => pyListGt lp cp
  | _, _ => false

/-- `_is_newer` with the logger state made explicit: the `except ValueError`
branch appends its `logger.warning` line. -/
def is_newerSt (latest current : String) (log : List String) : Bool × List String :=
  match versionParts latest, versionParts current with
  | some lp, some cp => (pyListGt lp cp, log)
  | _, _ => (false, log ++ ["Could not parse versions: " ++ latest ++ " vs " ++ current])

/-- `_parse_version` with the logger state made explicit: its body performs no
logging, so the state passes through unchanged. -/
def parse_versionSt (content : String) (log : List String) : Option String × List String :=
  (parse_version content, log)

/-- Outcome of the `urllib.request.urlopen` call inside `run`'s `try` block:
the decoded body, or one of the exception classes the handlers catch
(`urllib.error.URLError` with its `reason`, `TimeoutError`, any other
`Exception` with its message). -/
inductive FetchOutcome where
  | success (body : String)
  | urlError (reason : String)
  | timedOut
  | otherError (msg : String)

/-- One emitted signal of `UpdateChecker`. -/
inductive CheckResult where
  | updateAvailable (latest current : String)
  | upToDate (current : String)
  | failed (message : String)
deriving DecidableEq

/-- `UpdateChecker.run`, as the list of signals it emits (in order).  The
`if not latest_version` guard in the source also fires on an empty extracted
string, so the embedding keeps that check. -/
def run (current : String) (f : FetchOutcome) : List CheckResult :=
  match f with
  | .success body =>
    match parse_version body with
    | none => [.failed "Could not parse version from GitHub"]
    | some v =>
      if v = "" then [.failed "Could not parse version from GitHub"]
      else if is_newer v current then [.updateAvailable v current]
      else [.upToDate current]
  | .urlError reason => [.failed ("Network error: " ++ reason)]
  | .timedOut => [.failed "Request timed out"]
  | .otherError msg => [.failed ("Error checking for updates: " ++ msg)]

/-- The body shape claim C8 describes: somewhere in the input, the literal
`VERSION`, optional whitespace, `=`, optional whitespace, a quote, one or more
non-quote characters, and another (not necessarily matching) quote. -/
def hasVersionToken (s : List Char) : Prop :=
  ∃ pre ws1 ws2 : List Char, ∃ q1 : Char, ∃ v : List Char, ∃ q2 : Char, ∃ suf : List Char,
    s = pre ++ "VERSION".data ++ ws1 ++ '=' :: (ws2 ++ q1 :: (v ++ q2 :: suf)) ∧
    (∀ c ∈ ws1, pySpace c = true) ∧
    (∀ c ∈ ws2, pySpace c = true) ∧
    isQuote q1 = true ∧
    isQuote q2 = true ∧
    v ≠ [] ∧
    (∀ c ∈ v, isQuote c = false)

-- Sanity examples (concrete evaluations of the embedding).
example : parse_version "VERSION = \"2.2.0\"" = some "2.2.0" := by decide
example : parse_version "nothing here" = none := by decide
example : versionParts "2.10.0" = some [2, 10, 0] := by decide
example : versionParts "2.x.0" = none := by decide
example : is_newer "2.10.0" "2.9.9" = true := by decide
example : is_newer "2.1.0" "2.1.0" = false := by decide
example : is_newer "2.2" "2.1.9" = true := by decide
example : is_newer "2.1" "2.1.0" = false := by decide
example : pyIntL " -2 ".data = some (-2) := by decide
example : pyIntL "1_0".data = some 10 := by decide
example : pyIntL "1__0".data = none := by decide
example : pyIntL "_1".data = none := by decide
example : pyIntL "1_".data = none := by decide
example : parse_version "VERSION = \"\"" = none := by decide
example : parse_version "say VERSION = \"1.0\" and VERSION = \"2.0\"" = some "1.0" := by decide

/-! ### Helper lemmas about the regex embedding -/

theorem dropLit_eq_append {lit s r : List Char} (h : dropLit lit s = some r) : s = lit ++ r := by
  induction lit generalizing s with
  | nil =>
    simp only [dropLit, Option.some.injEq] at h
    simp [h]
  | cons c cs ih =>
    cases s with
    | nil => simp [dropLit] at h
    | cons d ds =>
      by_cases hc : c = d
      · subst hc
        simp only [dropLit, if_pos rfl] at h
        simp [ih h]
      · simp [dropLit, hc] at h

theorem dropLit_append (lit r : List Char) : dropLit lit (lit ++ r) = some r := by
  induction lit with
  | nil => rfl
  | cons c cs ih => simp [dropLit, ih]

theorem dropWhile_head_false {α : Type} {p : α → Bool} {l : List α} {x : α} {xs : List α}
    (h : l.dropWhile p = x :: xs) : p x = false := by
  induction l with
  | nil => simp at h
  | cons a l ih =>
    rw [List.dropWhile_cons] at h
    by_cases ha : p a = true
    · rw [if_pos ha] at h
      exact ih h
    · rw [if_neg ha] at h
      cases h
      simpa using ha

theorem dropWhile_all_cons {α : Type} {p : α → Bool} {ws : List α} {x : α} (r : List α)
    (hws : ∀ c ∈ ws, p c = true) (hx : p x = false) :
    (ws ++ x :: r).dropWhile p = x :: r := by
  induction ws with
  | nil => simp [List.dropWhile_cons, hx]
  | cons a ws ih =>
    have ha : p a = true := hws a (by simp)
    rw [List.cons_append, List.dropWhile_cons, if_pos ha]
    exact ih fun c hc => hws c (by simp [hc])

theorem takeWhile_all_cons {α : Type} {p : α → Bool} {ws : List α} {x : α} (r : List α)
    (hws : ∀ c ∈ ws, p c = true) (hx : p x = false) :
    (ws ++ x :: r).takeWhile p = ws := by
  induction ws with
  | nil => simp [List.takeWhile_cons, hx]
  | cons a ws ih =>
    have ha : p a = true := hws a (by simp)
    rw [List.cons_append, List.takeWhile_cons, if_pos ha]
    rw [ih fun c hc => hws c (by simp [hc])]

theorem isQuote_iff {c : Char} : isQuote c = true ↔ c = '"' ∨ c = Char.ofNat 39 := by
  simp [isQuote]

theorem isQuote_not_space {c : Char} (h : isQuote c = true) : pySpace c = false := by
  rcases isQuote_iff.mp h with rfl | rfl <;> decide

theorem matchTail_append (v suf : List Char) (q2 : Char) (hq2 : isQuote q2 = true)
    (hv : v ≠ []) (hvq : ∀ c ∈ v, isQuote c = false) :
    matchTail (v ++ q2 :: suf) = some v := by
  have htake : (v ++ q2 :: suf).takeWhile (fun c => !(isQuote c)) = v :=
    takeWhile_all_cons suf (fun c hc => by simp [hvq c hc]) (by simp [hq2])
  have hdrop : (v ++ q2 :: suf).dropWhile (fun c => !(isQuote c)) = q2 :: suf :=
    dropWhile_all_cons suf (fun c hc => by simp [hvq c hc]) (by simp [hq2])
  unfold matchTail
  rw [htake, hdrop]
  cases v with
  | nil => exact absurd rfl hv
  | cons a v => rfl

theorem matchTail_some {s5 v : List Char} (h : matchTail s5 = some v) :
    ∃ q2 suf, s5 = v ++ q2 :: suf ∧ isQuote q2 = true ∧ v ≠ [] ∧
      (∀ c ∈ v, isQuote c = false) := by
  unfold matchTail at h
  cases htk : s5.takeWhile (fun c => !(isQuote c)) with
  | nil => rw [htk] at h; exact absurd h (by simp [matchTail])
  | cons a v0 =>
    cases hdp : s5.dropWhile (fun c => !(isQuote c)) with
    | nil => rw [htk, hdp] at h; exact absurd h (by simp)
    | cons q2 suf =>
      rw [htk, hdp] at h
      simp only [Option.some.injEq] at h
      subst h
      refine ⟨q2, suf, ?_, ?_, by simp, ?_⟩
      · conv_lhs => rw [← List.takeWhile_append_dropWhile (p := fun c => !(isQuote c)) (l := s5)]
        rw [htk, hdp]
      · have := dropWhile_head_false hdp
        simpa using this
      · intro c hc
        have hc2 : c ∈ s5.takeWhile (fun c => !(isQuote c)) := by
          rw [htk]; exact hc
        have := List.mem_takeWhile_imp hc2
        simpa using this

theorem matchQuoted_some {s4 v : List Char} (h : matchQuoted s4 = some v) :
    ∃ q1 s5, s4 = q1 :: s5 ∧ isQuote q1 = true ∧ matchTail s5 = some v := by
  cases s4 with
  | nil => exact absurd h (by simp [matchQuoted])
  | cons q s5 =>
    simp only [matchQuoted] at h
    by_cases hq : isQuote q = true
    · rw [if_pos hq] at h
      exact ⟨q, s5, rfl, hq, h⟩
    · rw [if_neg hq] at h
      exact absurd h (by simp)

theorem matchEq_some {s2 v : List Char} (h : matchEq s2 = some v) :
    ∃ s3, s2 = '=' :: s3 ∧ matchQuoted (s3.dropWhile pySpace) = some v := by
  cases s2 with
  | nil => exact absurd h (by simp [matchEq])
  | cons e s3 =>
    simp only [matchEq] at h
    by_cases he : e = '='
    · subst he
      rw [if_pos rfl] at h
      exact ⟨s3, rfl, h⟩
    · rw [if_neg he] at h
      exact absurd h (by simp)

/-- The match attempt succeeds at the start of a well-formed token and captures
exactly the quoted value. -/
theorem matchAt_token (ws1 ws2 v suf : List Char) (q1 q2 : Char)
    (h1 : ∀ c ∈ ws1, pySpace c = true) (h2 : ∀ c ∈ ws2, pySpace c = true)
    (hq1 : isQuote q1 = true) (hq2 : isQuote q2 = true)
    (hv : v ≠ []) (hvq : ∀ c ∈ v, isQuote c = false) :
    matchAt ("VERSION".data ++ (ws1 ++ '=' :: (ws2 ++ q1 :: (v ++ q2 :: suf)))) = some v := by
  unfold matchAt
  rw [dropLit_append]
  show matchEq ((ws1 ++ '=' :: (ws2 ++ q1 :: (v ++ q2 :: suf))).dropWhile pySpace) = some v
  rw [dropWhile_all_cons ((ws2 ++ q1 :: (v ++ q2 :: suf))) h1 (by decide)]
  show (if ('=' : Char) = '=' then matchQuoted ((ws2 ++ q1 :: (v ++ q2 :: suf)).dropWhile pySpace) else none) = some v
  rw [if_pos rfl]
  rw [dropWhile_all_cons (v ++ q2 :: suf) h2 (isQuote_not_space hq1)]
  show (if isQuote q1 = true then matchTail (v ++ q2 :: suf) else none) = some v
  rw [if_pos hq1]
  exact matchTail_append v suf q2 hq2 hv hvq

/-- A successful match attempt decomposes the input into the token shape. -/
theorem matchAt_some_decomp {s v : List Char} (h : matchAt s = some v) :
    ∃ ws1 ws2 : List Char, ∃ q1 : Char, ∃ q2 : Char, ∃ suf : List Char,
      s = "VERSION".data ++ (ws1 ++ '=' :: (ws2 ++ q1 :: (v ++ q2 :: suf))) ∧
      (∀ c ∈ ws1, pySpace c = true) ∧ (∀ c ∈ ws2, pySpace c = true) ∧
      isQuote q1 = true ∧ isQuote q2 = true ∧ v ≠ [] ∧ (∀ c ∈ v, isQuote c = false) := by
  unfold matchAt at h
  cases hd : dropLit "VERSION".data s with
  | none => rw [hd] at h; exact absurd h (by simp)
  | some s1 =>
    rw [hd] at h
    obtain ⟨s3, hw1, hquoted⟩ := matchEq_some h
    obtain ⟨q1, s5, hw2, hq1, htail⟩ := matchQuoted_some hquoted
    obtain ⟨q2, suf, hs5, hq2, hv, hvq⟩ := matchTail_some htail
    refine ⟨s1.takeWhile pySpace, s3.takeWhile pySpace, q1, q2, suf, ?_, ?_, ?_, hq1, hq2, hv, hvq⟩
    · have e1 : s = "VERSION".data ++ s1 := dropLit_eq_append hd
      have e2 : s1 = s1.takeWhile pySpace ++ '=' :: s3 := by
        conv_lhs => rw [← List.takeWhile_append_dropWhile (p := pySpace) (l := s1)]
        rw [hw1]
      have e3 : s3 = s3.takeWhile pySpace ++ q1 :: s5 := by
        conv_lhs => rw [← List.takeWhile_append_dropWhile (p := pySpace) (l := s3)]
        rw [hw2]
      calc s = "VERSION".data ++ s1 := e1
        _ = "VERSION".data ++ (s1.takeWhile pySpace ++ '=' :: s3) := by rw [← e2]
        _ = "VERSION".data ++ (s1.takeWhile pySpace ++ '=' :: (s3.takeWhile pySpace ++ q1 :: s5)) := by
              rw [← e3]
        _ = "VERSION".data ++ (s1.takeWhile pySpace ++ '=' :: (s3.takeWhile pySpace ++ q1 :: (v ++ q2 :: suf))) := by
              rw [hs5]
    · intro c hc
      exact List.mem_takeWhile_imp hc
    · intro c hc
      exact List.mem_takeWhile_imp hc

theorem matchAt_nil : matchAt [] = none := by decide

theorem searchV_cons_some {c : Char} {rest v : List Char} (h : matchAt (c :: rest) = some v) :
    searchV (c :: rest) = some v := by
  simp only [searchV, h]

theorem searchV_cons_none {c : Char} {rest : List Char} (h : matchAt (c :: rest) = none) :
    searchV (c :: rest) = searchV rest := by
  simp only [searchV, h]

/-- If the pattern matches at some position (a suffix of the input), the
search succeeds. -/
theorem searchV_some_of_suffix {t s v : List Char} (hsuf : t <:+ s)
    (h : matchAt t = some v) : ∃ w, searchV s = some w := by
  obtain ⟨pre, rfl⟩ := hsuf
  induction pre with
  | nil =>
    rw [List.nil_append]
    cases t with
    | nil => rw [matchAt_nil] at h; exact absurd h (by simp)
    | cons c rest => exact ⟨v, searchV_cons_some h⟩
  | cons c pre ih =>
    rw [List.cons_append]
    cases hm : matchAt (c :: (pre ++ t)) with
    | some w => exact ⟨w, searchV_cons_some hm⟩
    | none => rw [searchV_cons_none hm]; exact ih

/-- A successful search returns the capture of the leftmost matching position:
the match succeeds at the witness suffix and fails at every strictly earlier
position (longer suffix). -/
theorem searchV_some_leftmost {s v : List Char} (h : searchV s = some v) :
    ∃ t, t <:+ s ∧ matchAt t = some v ∧
      ∀ t', t' <:+ s → t.length < t'.length → matchAt t' = none := by
  induction s with
  | nil => simp [searchV] at h
  | cons c rest ih =>
    cases hm : matchAt (c :: rest) with
    | some w =>
      have hw : w = v := by
        have := searchV_cons_some hm
        rw [h] at this
        exact (Option.some.injEq _ _ ▸ this).symm
      subst hw
      refine ⟨c :: rest, List.suffix_refl _, hm, ?_⟩
      intro t' ht' hlen
      have := ht'.length_le
      omega
    | none =>
      rw [searchV_cons_none hm] at h
      obtain ⟨t, hsuf, hm2, hleft⟩ := ih h
      refine ⟨t, hsuf.trans (List.suffix_cons c rest), hm2, ?_⟩
      intro t' ht' hlen
      rcases List.suffix_cons_iff.mp ht' with rfl | ht2
      · exact hm
      · exact hleft t' ht2 hlen

theorem parse_version_some_data {body v : String} (h : parse_version body = some v) :
    searchV body.data = some v.data := by
  unfold parse_version at h
  cases hs : searchV body.data with
  | none => rw [hs] at h; exact absurd h (by simp)
  | some w =>
    rw [hs] at h
    simp only [Option.map_some'] at h
    cases h
    rfl

/-- The extracted version string is nonempty and contains no quote
character. -/
theorem parse_version_shape {body v : String} (h : parse_version body = some v) :
    v ≠ "" ∧ ∀ c ∈ v.data, isQuote c = false := by
  have hs := parse_version_some_data h
  obtain ⟨t, _, hm, _⟩ := searchV_some_leftmost hs
  obtain ⟨_, _, _, _, _, _, _, _, _, _, hne, hq⟩ := matchAt_some_decomp hm
  refine ⟨?_, hq⟩
  intro he
  apply hne
  have : v.data = ("" : String).data := by rw [he]
  simpa using this

/-- `run` on a successfully parsed body reduces to the comparison. -/
theorem run_success_parsed {current body latest : String}
    (hb : parse_version body = some latest) :
    run current (.success body) =
      if is_newer latest current then [CheckResult.updateAvailable latest current]
      else [CheckResult.upToDate current] := by
  have hne : latest ≠ "" := (parse_version_shape hb).1
  simp only [run, hb]
  rw [if_neg hne]

/-- Python's `>` on integer lists is the standard strict lexicographic order
(`List.Lex`), read right-to-left. -/
theorem pyListGt_iff_lex : ∀ a b : List Int, pyListGt a b = true ↔ List.Lex (· < ·) b a
  | [], b => by
    constructor
    · intro h
      exact absurd h (by simp [pyListGt])
    · intro h
      exact absurd h (List.Lex.not_nil_right _ _)
  | x :: xs, [] => by
    constructor
    · intro _
      exact List.Lex.nil
    · intro _
      rfl
  | x :: xs, y :: ys => by
    unfold pyListGt
    by_cases h1 : y < x
    · rw [if_pos h1]
      constructor
      · intro _
        exact List.Lex.rel h1
      · intro _
        rfl
    · rw [if_neg h1]
      by_cases h2 : x < y
      · rw [if_pos h2]
        constructor
        · intro h
          exact absurd h (by simp)
        · intro hlex
          cases hlex with
          | rel hr => exact absurd hr h1
          | cons ht => exact absurd h2 (lt_irrefl x)
      · rw [if_neg h2]
        have hxy : x = y := le_antisymm (not_lt.mp h1) (not_lt.mp h2)
        subst hxy
        rw [pyListGt_iff_lex xs ys]
        constructor
        · exact List.Lex.cons
        · intro hlex
          cases hlex with
          | rel hr => exact absurd hr h1
          | cons ht => exact ht

theorem mem_of_mem_stripWS {c : Char} {s : List Char} (h : c ∈ stripWS s) : c ∈ s := by
  unfold stripWS at h
  rw [List.mem_reverse] at h
  have h2 : c ∈ (s.dropWhile pySpace).reverse :=
    (List.dropWhile_sublist (p := pySpace)).subset h
  rw [List.mem_reverse] at h2
  exact (List.dropWhile_sublist (p := pySpace)).subset h2

/-- A parsed integer can be negative only if the segment contains a minus
sign. -/
theorem pyIntL_neg_mem {s : List Char} {n : Int} (h : pyIntL s = some n) (hn : n < 0) :
    '-' ∈ s := by
  unfold pyIntL at h
  cases hst : stripWS s with
  | nil => rw [hst] at h; exact absurd h (by simp [pySigned])
  | cons c rest =>
    rw [hst] at h
    simp only [pySigned] at h
    by_cases hc : c = '-'
    · subst hc
      apply mem_of_mem_stripWS (s := s)
      rw [hst]
      exact List.mem_cons_self _ _
    · rw [if_neg hc] at h
      by_cases hp : c = '+'
      · rw [if_pos hp] at h
        cases hd : pyDigits rest with
        | none => rw [hd] at h; exact absurd h (by simp)
        | some m =>
          rw [hd] at h
          simp only [Option.some.injEq] at h
          rw [← h] at hn
          exact absurd hn (by omega)
      · rw [if_neg hp] at h
        cases hd : pyDigits (c :: rest) with
        | none => rw [hd] at h; exact absurd h (by simp)
        | some m =>
          rw [hd] at h
          simp only [Option.some.injEq] at h
          rw [← h] at hn
          exact absurd hn (by omega)

theorem splitDots_ne_nil : ∀ l : List Char, splitDots l ≠ []
  | [] => by simp [splitDots]
  | c :: rest => by
    unfold splitDots
    by_cases hc : c = '.'
    · rw [if_pos hc]
      simp
    · rw [if_neg hc]
      cases h : splitDots rest with
      | nil => simp
      | cons s ss => simp

/-- Every character of a segment produced by the dot split occurs in the
original string. -/
theorem mem_of_mem_splitDots {c : Char} :
    ∀ {l seg : List Char}, seg ∈ splitDots l → c ∈ seg → c ∈ l := by
  intro l
  induction l with
  | nil =>
    intro seg hseg hc
    simp only [splitDots, List.mem_singleton] at hseg
    subst hseg
    simp at hc
  | cons a rest ih =>
    intro seg hseg hc
    unfold splitDots at hseg
    by_cases ha : a = '.'
    · rw [if_pos ha] at hseg
      rcases List.mem_cons.mp hseg with rfl | hseg2
      · simp at hc
      · exact List.mem_cons_of_mem a (ih hseg2 hc)
    · rw [if_neg ha] at hseg
      cases hsp : splitDots rest with
      | nil => exact absurd hsp (splitDots_ne_nil rest)
      | cons s ss =>
        rw [hsp] at hseg
        rcases List.mem_cons.mp hseg with rfl | hseg2
        · rcases List.mem_cons.mp hc with rfl | hc2
          · exact List.mem_cons_self _ _
          · exact List.mem_cons_of_mem a
              (ih (by rw [hsp]; exact List.mem_cons_self _ _) hc2)
        · exact List.mem_cons_of_mem a
            (ih (by rw [hsp]; exact List.mem_cons_of_mem s hseg2) hc)

/-- Every component of a successfully parsed part list comes from one of the
segments. -/
theorem parseParts_mem :
    ∀ {segs : List (List Char)} {ns : List Int}, parseParts segs = some ns →
      ∀ n ∈ ns, ∃ seg ∈ segs, pyIntL seg = some n := by
  intro segs
  induction segs with
  | nil =>
    intro ns h n hn
    simp only [parseParts, Option.some.injEq] at h
    subst h
    simp at hn
  | cons seg rest ih =>
    intro ns h n hn
    unfold parseParts at h
    cases h1 : pyIntL seg with
    | none => rw [h1] at h; exact absurd h (by simp)
    | some m =>
      cases h2 : parseParts rest with
      | none => rw [h1, h2] at h; exact absurd h (by simp)
      | some ms =>
        rw [h1, h2] at h
        simp only [Option.some.injEq] at h
        subst h
        rcases List.mem_cons.mp hn with rfl | hn2
        · exact ⟨seg, List.mem_cons_self _ _, h1⟩
        · obtain ⟨sg, hsg, hp⟩ := ih h2 n hn2
          exact ⟨sg, List.mem_cons_of_mem _ hsg, hp⟩

theorem lex_irrefl : ∀ p : List Int, ¬ List.Lex (· < ·) p p
  | [] => List.Lex.not_nil_right _ _
  | x :: xs => fun h => by
    cases h with
    | rel hr => exact lt_irrefl x hr
    | cons ht => exact lex_irrefl xs ht

/-! ### Claim theorems -/

/-- C1: for successfully parsed version tuples, `_is_newer` agrees with the
standard lexicographic integer-tuple order, and `run` emits
`update_available latest current` exactly when the remote tuple is strictly
greater, `no_update current` otherwise; equal version strings give
`no_update`. -/
theorem is_newer_lex_run (latest current body : String) (pl pc : List Int)
    (hl : versionParts latest = some pl) (hc : versionParts current = some pc)
    (hb : parse_version body = some latest) :
    (is_newer latest current = true ↔ List.Lex (· < ·) pc pl)
    ∧ (List.Lex (· < ·) pc pl →
        run current (.success body) = [CheckResult.updateAvailable latest current])
    ∧ (¬ List.Lex (· < ·) pc pl →
        run current (.success body) = [CheckResult.upToDate current])
    ∧ (latest = current → run current (.success body) = [CheckResult.upToDate current]) := by
  have hiff : is_newer latest current = true ↔ List.Lex (· < ·) pc pl := by
    unfold is_newer
    rw [hl, hc]
    exact pyListGt_iff_lex pl pc
  refine ⟨hiff, ?_, ?_, ?_⟩
  · intro hlex
    rw [run_success_parsed hb, if_pos (hiff.mpr hlex)]
  · intro hlex
    rw [run_success_parsed hb, if_neg (fun hb2 => hlex (hiff.mp hb2))]
  · intro heq
    have hplc : pl = pc := by
      rw [heq] at hl
      rw [hl] at hc
      exact (Option.some.injEq _ _ ▸ hc)
    rw [run_success_parsed hb, if_neg]
    intro hb2
    exact lex_irrefl pl (hplc ▸ hiff.mp hb2)

theorem is_newer_lex_run_witness :
    run "2.1.0" (.success "VERSION = \"2.2.0\"") =
      [CheckResult.updateAvailable "2.2.0" "2.1.0"] :=
  (is_newer_lex_run "2.2.0" "2.1.0" "VERSION = \"2.2.0\"" [2, 2, 0] [2, 1, 0]
    (by decide) (by decide) (by decide)).2.1
    (List.Lex.cons (List.Lex.rel (by decide)))

/-- C2: when the fetch raises (URLError, TimeoutError, or any other
exception), `run` emits a single `check_failed` signal carrying the
corresponding human-readable message, and no exception escapes (the function
is total and every handler branch produces a result). -/
theorem run_transport_failure (current reason msg : String) :
    run current (.urlError reason) = [CheckResult.failed ("Network error: " ++ reason)]
    ∧ run current .timedOut = [CheckResult.failed "Request timed out"]
    ∧ run current (.otherError msg) =
        [CheckResult.failed ("Error checking for updates: " ++ msg)] :=
  ⟨rfl, rfl, rfl⟩

/-- C3: when the pattern finds no match in the body, `run` emits
`check_failed` with exactly the message "Could not parse version from
GitHub". -/
theorem run_no_match_failed (current body : String) (h : parse_version body = none) :
    run current (.success body) = [CheckResult.failed "Could not parse version from GitHub"] := by
  simp only [run, h]

theorem run_no_match_failed_witness :
    run "2.1.0" (.success "no version assignment here") =
      [CheckResult.failed "Could not parse version from GitHub"] :=
  run_no_match_failed "2.1.0" "no version assignment here" (by decide)

/-- C5: if either version string has a segment that does not parse as an
integer, the check does not fail: `_is_newer` returns `False` (after logging
a warning), so `run` emits `no_update current`. -/
theorem unparsable_version_up_to_date (latest current body : String) (log : List String)
    (hb : parse_version body = some latest)
    (h : versionParts latest = none ∨ versionParts current = none) :
    is_newer latest current = false
    ∧ run current (.success body) = [CheckResult.upToDate current]
    ∧ (is_newerSt latest current log).2 =
        log ++ ["Could not parse versions: " ++ latest ++ " vs " ++ current] := by
  have hfalse : is_newer latest current = false := by
    cases h1 : versionParts latest with
    | none => cases h2 : versionParts current <;> simp [is_newer, h1, h2]
    | some lp =>
      cases h2 : versionParts current with
      | none => simp [is_newer, h1, h2]
      | some cp =>
        rcases h with h | h
        · rw [h1] at h
          exact Option.noConfusion h
        · rw [h2] at h
          exact Option.noConfusion h
  have hwarn : (is_newerSt latest current log).2 =
      log ++ ["Could not parse versions: " ++ latest ++ " vs " ++ current] := by
    cases h1 : versionParts latest with
    | none => cases h2 : versionParts current <;> simp [is_newerSt, h1, h2]
    | some lp =>
      cases h2 : versionParts current with
      | none => simp [is_newerSt, h1, h2]
      | some cp =>
        rcases h with h | h
        · rw [h1] at h
          exact Option.noConfusion h
        · rw [h2] at h
          exact Option.noConfusion h
  refine ⟨hfalse, ?_, hwarn⟩
  rw [run_success_parsed hb]
  simp [hfalse]

theorem unparsable_version_up_to_date_witness :
    is_newer "abc" "2.1.0" = false
    ∧ run "2.1.0" (.success "VERSION = \"abc\"") = [CheckResult.upToDate "2.1.0"]
    ∧ (is_newerSt "abc" "2.1.0" []).2 =
        [] ++ ["Could not parse versions: " ++ "abc" ++ " vs " ++ "2.1.0"] :=
  unparsable_version_up_to_date "abc" "2.1.0" "VERSION = \"abc\"" []
    (by decide) (Or.inl (by decide))

/-- C6: every invocation of `run` emits exactly one signal: on each execution
path the list of emitted results has length one. -/
theorem run_exactly_one_result (current : String) (f : FetchOutcome) :
    (run current f).length = 1 := by
  cases f with
  | success body =>
    cases hp : parse_version body with
    | none => simp [run, hp]
    | some v =>
      simp only [run, hp]
      by_cases hv : v = ""
      · rw [if_pos hv]
        rfl
      · rw [if_neg hv]
        by_cases hn : is_newer v current = true
        · rw [if_pos hn]
          rfl
        · rw [if_neg hn]
          rfl
  | urlError r => rfl
  | timedOut => rfl
  | otherError m => rfl

/-- C10: `_parse_version` and `_is_newer` are deterministic pure functions of
their arguments: with the ambient logger state made explicit, their results do
not depend on it, and agree with the stateless embeddings. -/
theorem parse_and_compare_state_independent (body latest current : String)
    (log1 log2 : List String) :
    (parse_versionSt body log1).1 = (parse_versionSt body log2).1
    ∧ (is_newerSt latest current log1).1 = (is_newerSt latest current log2).1
    ∧ (parse_versionSt body log1).1 = parse_version body
    ∧ (is_newerSt latest current log1).1 = is_newer latest current := by
  refine ⟨rfl, ?_, rfl, ?_⟩
  · cases h1 : versionParts latest <;> cases h2 : versionParts current <;>
      simp [is_newerSt, h1, h2]
  · cases h1 : versionParts latest <;> cases h2 : versionParts current <;>
      simp [is_newerSt, is_newer, h1, h2]

/-- C4 counterexample: a body can contain the token `VERSION = "3.0.0"` and
still extract a different value, because an earlier occurrence of the pattern
wins. -/
theorem parse_token_not_extracted :
    ("VERSION = \"1.0\" " ++ "VERSION = \"3.0.0\"" : String) =
      "VERSION = \"1.0\" VERSION = \"3.0.0\""
    ∧ parse_version "VERSION = \"1.0\" VERSION = \"3.0.0\"" = some "1.0"
    ∧ ("1.0" : String) ≠ "3.0.0" :=
  ⟨by decide, by decide, by decide⟩

theorem suffix_eq_drop {α : Type} {t s : List α} (h : t <:+ s) :
    t = s.drop (s.length - t.length) := by
  obtain ⟨pre, rfl⟩ := h
  rw [List.length_append]
  have hlen : pre.length + t.length - t.length = pre.length := by omega
  rw [hlen, List.drop_left]

/-- When the pattern matches at the start of the suffix `t` of the input and
fails at every strictly earlier position, the search returns that match's
capture. -/
theorem searchV_eq_of_leftmost {t v : List Char} (hm : matchAt t = some v) :
    ∀ pre : List Char,
      (∀ t', t' <:+ pre ++ t → t.length < t'.length → matchAt t' = none) →
      searchV (pre ++ t) = some v := by
  intro pre
  induction pre with
  | nil =>
    intro _
    rw [List.nil_append]
    cases t with
    | nil =>
      rw [matchAt_nil] at hm
      exact absurd hm (by simp)
    | cons c rest => exact searchV_cons_some hm
  | cons c pre ih =>
    intro h
    rw [List.cons_append]
    have hnone : matchAt (c :: (pre ++ t)) = none := by
      refine h (c :: (pre ++ t)) ?_ ?_
      · rw [List.cons_append]
      · simp only [List.length_cons, List.length_append]
        omega
    rw [searchV_cons_none hnone]
    apply ih
    intro t' hsuf hlen
    refine h t' (hsuf.trans ?_) hlen
    rw [List.cons_append]
    exact List.suffix_cons _ _

/-- C4 (amended): when a token of the form `VERSION = "<value>"` — either
quote style, arbitrary whitespace around `=` — occurs in the body and no match
of the pattern starts earlier in the body (the token is the leftmost match),
`_parse_version` extracts exactly `<value>`, for any prefix before and any
suffix after the token. -/
theorem parse_version_leftmost_token (pre ws1 ws2 v suf : List Char) (q1 q2 : Char)
    (h1 : ∀ c ∈ ws1, pySpace c = true) (h2 : ∀ c ∈ ws2, pySpace c = true)
    (hq1 : isQuote q1 = true) (hq2 : isQuote q2 = true)
    (hv : v ≠ []) (hvq : ∀ c ∈ v, isQuote c = false)
    (hleft : ∀ i < pre.length,
      matchAt
        ((pre ++ ("VERSION".data ++ (ws1 ++ '=' :: (ws2 ++ q1 :: (v ++ q2 :: suf))))).drop i) =
        none) :
    parse_version
        (String.mk (pre ++ ("VERSION".data ++ (ws1 ++ '=' :: (ws2 ++ q1 :: (v ++ q2 :: suf)))))) =
      some (String.mk v) := by
  have hm := matchAt_token ws1 ws2 v suf q1 q2 h1 h2 hq1 hq2 hv hvq
  have hsearch :
      searchV (pre ++ ("VERSION".data ++ (ws1 ++ '=' :: (ws2 ++ q1 :: (v ++ q2 :: suf))))) =
        some v := by
    apply searchV_eq_of_leftmost hm pre
    intro t' hsuf hlen
    have hdrop := suffix_eq_drop hsuf
    have hlt :
        (pre ++ ("VERSION".data ++ (ws1 ++ '=' :: (ws2 ++ q1 :: (v ++ q2 :: suf))))).length -
          t'.length < pre.length := by
      have hle := hsuf.length_le
      rw [List.length_append] at hle ⊢
      omega
    rw [hdrop]
    exact hleft _ hlt
  unfold parse_version
  have hdata :
      (String.mk (pre ++ ("VERSION".data ++ (ws1 ++ '=' :: (ws2 ++ q1 :: (v ++ q2 :: suf)))))).data =
        pre ++ ("VERSION".data ++ (ws1 ++ '=' :: (ws2 ++ q1 :: (v ++ q2 :: suf)))) := rfl
  rw [hdata, hsearch]
  rfl

theorem parse_version_leftmost_token_witness :
    parse_version "x VERSION = \"3.0.0\"" = some "3.0.0" := by
  have h := parse_version_leftmost_token "x ".data [' '] [' '] "3.0.0".data [] '"' '"'
    (by decide) (by decide) (by decide) (by decide) (by decide) (by decide) (by decide)
  have e1 :
      String.mk ("x ".data ++ ("VERSION".data ++
        ([' '] ++ '=' :: ([' '] ++ '"' :: ("3.0.0".data ++ '"' :: ([] : List Char)))))) =
        "x VERSION = \"3.0.0\"" := by decide
  have e2 : String.mk "3.0.0".data = "3.0.0" := by decide
  rw [e1, e2] at h
  exact h

/-- C7 counterexample: Python `int` accepts a leading minus sign, so a version
string whose every segment parses as an integer can still yield a tuple with a
negative component. -/
theorem versionParts_negative_component :
    versionParts "1.-2" = some [1, -2] ∧ ((-2 : Int) < 0) :=
  ⟨by decide, by decide⟩

/-- C7 (amended): every Version derived from a version string that contains no
`-` character is a tuple of non-negative integers; a segment with a minus sign
(accepted by `int`) is the only way to get a negative component. -/
theorem versionParts_nonneg_without_minus (s : String) (p : List Int)
    (hm : ('-' : Char) ∉ s.data) (h : versionParts s = some p) :
    ∀ x ∈ p, 0 ≤ x := by
  intro x hx
  unfold versionParts at h
  obtain ⟨seg, hseg, hp⟩ := parseParts_mem h x hx
  by_contra hneg
  push_neg at hneg
  exact hm (mem_of_mem_splitDots hseg (pyIntL_neg_mem hp hneg))

theorem versionParts_nonneg_without_minus_witness :
    versionParts "1.2.3" = some [1, 2, 3]
    ∧ (0 : Int) ≤ 1 ∧ (0 : Int) ≤ 2 ∧ (0 : Int) ≤ 3 :=
  ⟨by decide,
    versionParts_nonneg_without_minus "1.2.3" [1, 2, 3] (by decide) (by decide) 1 (by simp),
    versionParts_nonneg_without_minus "1.2.3" [1, 2, 3] (by decide) (by decide) 2 (by simp),
    versionParts_nonneg_without_minus "1.2.3" [1, 2, 3] (by decide) (by decide) 3 (by simp)⟩

/-- C8: `_parse_version` succeeds on a body iff the body contains `VERSION`,
optional whitespace, `=`, optional whitespace, a quote, one or more non-quote
characters and another (not necessarily matching) quote; an extracted value is
nonempty and quote-free; and a body of just `VERSION = ""` yields no match and
the parse-failure outcome. -/
theorem parse_version_success_iff_token (body current : String) :
    ((∃ v, parse_version body = some v) ↔ hasVersionToken body.data)
    ∧ (∀ v, parse_version body = some v → v ≠ "" ∧ ∀ c ∈ v.data, isQuote c = false)
    ∧ parse_version "VERSION = \"\"" = none
    ∧ run current (.success "VERSION = \"\"") =
        [CheckResult.failed "Could not parse version from GitHub"] := by
  have h0 : parse_version "VERSION = \"\"" = none := by decide
  refine ⟨⟨?_, ?_⟩, fun v hv => parse_version_shape hv, h0, by simp only [run, h0]⟩
  · rintro ⟨v, hv⟩
    have hs := parse_version_some_data hv
    obtain ⟨t, hsuf, hmt, _⟩ := searchV_some_leftmost hs
    obtain ⟨ws1, ws2, q1, q2, suf, heq, hw1, hw2, hq1, hq2, hne, hq⟩ := matchAt_some_decomp hmt
    obtain ⟨pre, hpre⟩ := hsuf
    refine ⟨pre, ws1, ws2, q1, v.data, q2, suf, ?_, hw1, hw2, hq1, hq2, hne, hq⟩
    rw [← hpre, heq]
    simp [List.append_assoc]
  · rintro ⟨pre, ws1, ws2, q1, v, q2, suf, heq, hw1, hw2, hq1, hq2, hne, hq⟩
    have hmt := matchAt_token ws1 ws2 v suf q1 q2 hw1 hw2 hq1 hq2 hne hq
    have hsuf : ("VERSION".data ++ (ws1 ++ '=' :: (ws2 ++ q1 :: (v ++ q2 :: suf)))) <:+ body.data := by
      refine ⟨pre, ?_⟩
      rw [heq]
      simp [List.append_assoc]
    obtain ⟨w, hw⟩ := searchV_some_of_suffix hsuf hmt
    refine ⟨String.mk w, ?_⟩
    unfold parse_version
    rw [hw]
    rfl

theorem parse_version_success_iff_token_witness :
    hasVersionToken "xx VERSION = \"1.2\" yy".data :=
  (parse_version_success_iff_token "xx VERSION = \"1.2\" yy" "1.0").1.mp ⟨"1.2", by decide⟩

/-- C9: a successful `_parse_version` returns the capture of the leftmost
matching position — the pattern matches at the witness position and fails at
every strictly earlier one; with two occurrences, the first wins. -/
theorem parse_version_leftmost_match (body v : String)
    (h : parse_version body = some v) :
    (∃ t, t <:+ body.data ∧ matchAt t = some v.data ∧
      ∀ t', t' <:+ body.data → t.length < t'.length → matchAt t' = none)
    ∧ parse_version "VERSION = \"1.0\" VERSION = \"2.0\"" = some "1.0" :=
  ⟨searchV_some_leftmost (parse_version_some_data h), by decide⟩

theorem parse_version_leftmost_match_witness :
    (∃ t, t <:+ "VERSION = \"1.0\" VERSION = \"2.0\"".data ∧ matchAt t = some "1.0".data ∧
      ∀ t', t' <:+ "VERSION = \"1.0\" VERSION = \"2.0\"".data →
        t.length < t'.length → matchAt t' = none)
    ∧ parse_version "VERSION = \"1.0\" VERSION = \"2.0\"" = some "1.0" :=
  parse_version_leftmost_match "VERSION = \"1.0\" VERSION = \"2.0\"" "1.0" (by decide)
